import Mathlib

/-!
Shallow embedding of `buf_iter` (src/src/lib.rs): a buffered lookahead
adapter `BufIter` over an iterator.  The Rust iterator is modelled as the
list of items it has yet to produce; `VecDeque` is modelled as a list
(front = head).  Every public and private method of the crate is embedded
below; machine-width overflow of `n + 1` in `peek`/`peek_mut` is modelled
separately (`peekW`, `peek_mutW`) with explicit `% 2 ^ w` arithmetic.
-/

set_option autoImplicit false

universe u

variable {α : Type u}

/-- `BufIter<Iter>` (src/src/lib.rs:4-8): `iter` is the remaining output of
the wrapped iterator, `buf` the `VecDeque` front-to-back. -/
structure BufIter (α : Type u) where
  iter : List α
  buf : List α
  deriving Repr, DecidableEq

/-- `BufIter::new` (src/src/lib.rs:15-20): wraps an iterator, empty buffer. -/
def BufIter.new (src : List α) : BufIter α :=
  ⟨src, []⟩

/-- `BufIter::push` (src/src/lib.rs:22-24): `buf.push_front(item)`. -/
def BufIter.push (s : BufIter α) (item : α) : BufIter α :=
  ⟨s.iter, item :: s.buf⟩

/-- `BufIter::pop` (src/src/lib.rs:26-32): front of the buffer if non-empty,
otherwise `iter.next()` (not stored in the buffer). -/
def BufIter.pop (s : BufIter α) : Option α × BufIter α :=
  match s.buf with
  | [] =>
    match s.iter with
    | [] => (none, ⟨[], []⟩)
    | x :: rest => (some x, ⟨rest, []⟩)
  | b :: bs => (some b, ⟨s.iter, bs⟩)

/-- The `while self.buf.len() < n { ... }` loop of `BufIter::prepare_n`
(src/src/lib.rs:98-103): pull one item at a time from `it`, appending to the
back of `bf`, until `bf` has `n` elements or `it` is exhausted. -/
def prepareGo (n : Nat) : List α → List α → List α × List α
  | [], bf => ([], bf)
  | x :: rest, bf =>
    if bf.length < n then prepareGo n rest (bf ++ [x]) else (x :: rest, bf)

/-- `BufIter::prepare_n` (src/src/lib.rs:96-108): run the pull loop, then
return `Ok` when the target was reached, `Err deficit` otherwise
(`NonZeroUsize::new(n.saturating_sub(len))`). -/
def BufIter.prepare_n (s : BufIter α) (n : Nat) : Except Nat Unit × BufIter α :=
  match prepareGo n s.iter s.buf with
  | (it, bf) =>
    (if bf.length < n then Except.error (n - bf.length) else Except.ok (), ⟨it, bf⟩)

/-- `BufIter::peek` (src/src/lib.rs:34-37): `prepare_n(n + 1).ok()?` then
`buf.get(n)`; the state mutation of `prepare_n` persists even on `Err`. -/
def BufIter.peek (s : BufIter α) (n : Nat) : Option α × BufIter α :=
  match s.prepare_n (n + 1) with
  | (Except.ok _, t) => (t.buf[n]?, t)
  | (Except.error _, t) => (none, t)

/-- `BufIter::peek_mut` (src/src/lib.rs:39-42): same lookup as `peek`, via
`buf.get_mut(n)`. -/
def BufIter.peek_mut (s : BufIter α) (n : Nat) : Option α × BufIter α :=
  match s.prepare_n (n + 1) with
  | (Except.ok _, t) => (t.buf[n]?, t)
  | (Except.error _, t) => (none, t)

/-- Writing `y` through the `&mut` reference returned by a successful
`peek_mut(n)`: the buffered element at position `n` is replaced in place. -/
def BufIter.peek_mut_write (s : BufIter α) (n : Nat) (y : α) : BufIter α :=
  match s.peek_mut n with
  | (some _, t) => ⟨t.iter, t.buf.set n y⟩
  | (none, t) => t

/-- A Rust `Bound<usize>`, as produced by `RangeBounds::start_bound` /
`end_bound` (src/src/lib.rs:83). -/
inductive Bound where
  | unbounded : Bound
  | included : Nat → Bound
  | excluded : Nat → Bound
  deriving Repr, DecidableEq

/-- The start index a `Bound` resolves to in slice indexing
(`ops::Bound` handling of `slice::get`): `Unbounded ↦ 0`,
`Included l ↦ l`, `Excluded l ↦ l + 1`. -/
def Bound.startIndex : Bound → Nat
  | Bound.unbounded => 0
  | Bound.included l => l
  | Bound.excluded l => l + 1

/-- The (exclusive) end index a `Bound` resolves to in slice indexing over a
slice of length `len`: `Unbounded ↦ len`, `Included u ↦ u + 1`,
`Excluded u ↦ u`. -/
def Bound.endIndex (len : Nat) : Bound → Nat
  | Bound.unbounded => len
  | Bound.included u => u + 1
  | Bound.excluded u => u

/-- Rust `slice::get(range)` for a range with the given bounds: `Some` of the
subslice when `start ≤ end ∧ end ≤ len`, `None` otherwise (never truncates). -/
def sliceGet (l : List α) (lo hi : Bound) : Option (List α) :=
  let a := lo.startIndex
  let b := Bound.endIndex l.length hi
  if a ≤ b ∧ b ≤ l.length then some ((l.drop a).take (b - a)) else none

/-- The `while let Some(item) = self.iter.next()` loop of
`BufIter::prepare_all` (src/src/lib.rs:109-113). -/
def drainGo : List α → List α → List α × List α
  | [], bf => ([], bf)
  | x :: rest, bf => drainGo rest (bf ++ [x])

/-- `BufIter::prepare_all` (src/src/lib.rs:109-113): pull the source to
exhaustion, appending everything to the buffer's back. -/
def BufIter.prepare_all (s : BufIter α) : BufIter α :=
  match drainGo s.iter s.buf with
  | (it, bf) => ⟨it, bf⟩

/-- The `for item in (&mut self.iter).take(extra)` loop of `BufIter::prepare`
(src/src/lib.rs:92-94): pull at most `k` items, appending to the back. -/
def pullGo : Nat → List α → List α → List α × List α
  | 0, it, bf => (it, bf)
  | _ + 1, [], bf => ([], bf)
  | k + 1, x :: rest, bf => pullGo k rest (bf ++ [x])

/-- `BufIter::prepare` (src/src/lib.rs:79-95): compute `extra` from the
range's end bound (`Included ni ↦ (ni + 1).saturating_sub(len)`,
`Excluded ne ↦ ne.saturating_sub(len)`), pull that many; `Unbounded`
delegates to `prepare_all`.  The start bound is not consulted. -/
def BufIter.prepare (s : BufIter α) (_lo hi : Bound) : BufIter α :=
  match hi with
  | Bound.included ni =>
    match pullGo ((ni + 1) - s.buf.length) s.iter s.buf with
    | (it, bf) => ⟨it, bf⟩
  | Bound.excluded ne =>
    match pullGo (ne - s.buf.length) s.iter s.buf with
    | (it, bf) => ⟨it, bf⟩
  | Bound.unbounded => s.prepare_all

/-- `BufIter::peek_slice` (src/src/lib.rs:44-50): `prepare(&index)` then
`buf.make_contiguous().get(index)` (`make_contiguous` does not change the
logical front-to-back contents). -/
def BufIter.peek_slice (s : BufIter α) (lo hi : Bound) : Option (List α) × BufIter α :=
  match s.prepare lo hi with
  | t => (sliceGet t.buf lo hi, t)

/-- `BufIter::peek_slice_mut` (src/src/lib.rs:52-58): same lookup via
`get_mut(index)`. -/
def BufIter.peek_slice_mut (s : BufIter α) (lo hi : Bound) : Option (List α) × BufIter α :=
  match s.prepare lo hi with
  | t => (sliceGet t.buf lo hi, t)

/-- `Iterator::next` for `BufIter` (src/src/lib.rs:67-69): `self.pop()`. -/
def BufIter.next (s : BufIter α) : Option α × BufIter α :=
  s.pop

/-- `Iterator::size_hint` for `BufIter`: the impl at src/src/lib.rs:61-70
does not override it, so the trait default `(0, None)` is inherited. -/
def BufIter.size_hint (_ : BufIter α) : Nat × Option Nat :=
  (0, none)

/-- `ExactSizeIterator::len` for `BufIter` (src/src/lib.rs:72, default body):
`let (lower, upper) = self.size_hint(); assert_eq!(upper, Some(lower)); lower`.
The assertion failure (a panic) is modelled as `none`. -/
def BufIter.len (s : BufIter α) : Option Nat :=
  match s.size_hint with
  | (lower, upper) => if upper = some lower then some lower else none

/-- The logical sequence held by the adapter: buffer front-to-back followed
by the remaining output of the wrapped iterator. -/
def BufIter.toList (s : BufIter α) : List α :=
  s.buf ++ s.iter

/-- The value of the `(k + 1)`-th `pop` (0-indexed) from state `s`. -/
def BufIter.popNth (s : BufIter α) : Nat → Option α
  | 0 => (s.pop).1
  | k + 1 => (s.pop).2.popNth k

/-- `BufIter::peek` with `usize` arithmetic made explicit: the target count
`n + 1` of src/src/lib.rs:35 is computed modulo `2 ^ w` (wrapping
semantics); everything else is unchanged. -/
def BufIter.peekW (w : Nat) (s : BufIter α) (n : Nat) : Option α × BufIter α :=
  match s.prepare_n ((n + 1) % 2 ^ w) with
  | (Except.ok _, t) => (t.buf[n]?, t)
  | (Except.error _, t) => (none, t)

/-- `BufIter::peek_mut` with `usize` arithmetic made explicit, as `peekW`. -/
def BufIter.peek_mutW (w : Nat) (s : BufIter α) (n : Nat) : Option α × BufIter α :=
  match s.prepare_n ((n + 1) % 2 ^ w) with
  | (Except.ok _, t) => (t.buf[n]?, t)
  | (Except.error _, t) => (none, t)

/-- One public mutating operation of the API surface. -/
inductive Op (α : Type u) where
  | push : α → Op α
  | pop : Op α
  | peek : Nat → Op α
  | peekMut : Nat → Op α
  | peekSlice : Bound → Bound → Op α
  | peekSliceMut : Bound → Bound → Op α

/-- The state after running one operation on the adapter. -/
def applyOp (s : BufIter α) : Op α → BufIter α
  | Op.push x => s.push x
  | Op.pop => (s.pop).2
  | Op.peek n => (s.peek n).2
  | Op.peekMut n => (s.peek_mut n).2
  | Op.peekSlice lo hi => (s.peek_slice lo hi).2
  | Op.peekSliceMut lo hi => (s.peek_slice_mut lo hi).2

/-- The state after running a sequence of operations on the adapter. -/
def runOps (s : BufIter α) : List (Op α) → BufIter α
  | [] => s
  | op :: ops => runOps (applyOp s op) ops

/-- The spec-level effect of one operation on the logical sequence:
`push` prepends, `pop` removes the front (the popped item), peeks leave the
sequence unchanged. -/
def applyOpAbs (l : List α) : Op α → List α
  | Op.push x => x :: l
  | Op.pop => l.tail
  | _ => l

/-- The spec-level result of a sequence of operations on the logical
sequence. -/
def runOpsAbs (l : List α) : List (Op α) → List α
  | [] => l
  | op :: ops => runOpsAbs (applyOpAbs l op) ops

/-- Closed form of the `prepare_n` pull loop. -/
theorem prepareGo_eq (n : Nat) (it bf : List α) :
    prepareGo n it bf = (it.drop (n - bf.length), bf ++ it.take (n - bf.length)) := by
  induction it generalizing bf with
  | nil => simp [prepareGo]
  | cons x rest ih =>
    rw [prepareGo]
    by_cases h : bf.length < n
    · rw [if_pos h, ih]
      have hl : (bf ++ [x]).length = bf.length + 1 := by simp
      have he : n - bf.length = (n - (bf.length + 1)) + 1 := by omega
      rw [hl, he, List.drop_succ_cons, List.take_succ_cons]
      simp [List.append_assoc]
    · rw [if_neg h]
      have he : n - bf.length = 0 := by omega
      simp [he]

/-- Closed form of the `prepare` pull loop. -/
theorem pullGo_eq (k : Nat) (it bf : List α) :
    pullGo k it bf = (it.drop k, bf ++ it.take k) := by
  induction k generalizing it bf with
  | zero => simp [pullGo]
  | succ k ih =>
    cases it with
    | nil => simp [pullGo]
    | cons x rest =>
      rw [pullGo, ih, List.drop_succ_cons, List.take_succ_cons]
      simp [List.append_assoc]

/-- Closed form of the `prepare_all` drain loop. -/
theorem drainGo_eq (it bf : List α) : drainGo it bf = ([], bf ++ it) := by
  induction it generalizing bf with
  | nil => simp [drainGo]
  | cons x rest ih => rw [drainGo, ih]; simp

/-- Closed form of `prepare_n`: it pulls `min (n - buffered) available` items
to the back of the buffer, and reports `Ok` exactly when `n` logical items
were available. -/
theorem prepare_n_eq (s : BufIter α) (n : Nat) :
    s.prepare_n n =
      (if s.toList.length < n then Except.error (n - s.toList.length) else Except.ok (),
        ⟨s.iter.drop (n - s.buf.length), s.buf ++ s.iter.take (n - s.buf.length)⟩) := by
  unfold BufIter.prepare_n
  rw [prepareGo_eq]
  dsimp only
  congr 1
  rw [List.length_append, List.length_take, BufIter.toList, List.length_append]
  rcases Nat.lt_or_ge (s.buf.length + s.iter.length) n with h | h
  · rw [if_pos (by omega), if_pos h]
    congr 1
    omega
  · rw [if_neg (by omega), if_neg (by omega)]

/-- `prepare_n` preserves the logical sequence. -/
theorem prepare_n_toList (s : BufIter α) (n : Nat) :
    (s.prepare_n n).2.toList = s.toList := by
  rw [prepare_n_eq, BufIter.toList, BufIter.toList, List.append_assoc,
    List.take_append_drop]

/-- Closed form of `peek`: it returns the `n`-th logical element and pulls
exactly `min ((n + 1) - buffered) available` items to the back of the
buffer. -/
theorem peek_eq (s : BufIter α) (n : Nat) :
    s.peek n =
      (s.toList[n]?,
        ⟨s.iter.drop ((n + 1) - s.buf.length),
          s.buf ++ s.iter.take ((n + 1) - s.buf.length)⟩) := by
  unfold BufIter.peek
  rw [prepare_n_eq]
  by_cases h : s.toList.length < n + 1
  · rw [if_pos h]
    dsimp only
    have hn : s.toList[n]? = none := List.getElem?_eq_none (by omega)
    rw [hn]
  · rw [if_neg h]
    dsimp only
    have hlen : n < (s.buf ++ s.iter.take ((n + 1) - s.buf.length)).length := by
      rw [List.length_append, List.length_take]
      rw [BufIter.toList, List.length_append] at h
      omega
    have hget : (s.buf ++ s.iter.take ((n + 1) - s.buf.length))[n]? = s.toList[n]? := by
      conv_rhs =>
        rw [BufIter.toList, ← List.take_append_drop ((n + 1) - s.buf.length) s.iter,
          ← List.append_assoc]
      rw [List.getElem?_append_left hlen]
    rw [hget]

/-- `peek_mut` is the same state transformer and lookup as `peek`. -/
theorem peek_mut_eq_peek (s : BufIter α) (n : Nat) : s.peek_mut n = s.peek n := rfl

/-- `peek` preserves the logical sequence. -/
theorem peek_toList (s : BufIter α) (n : Nat) :
    (s.peek n).2.toList = s.toList := by
  rw [peek_eq, BufIter.toList, BufIter.toList, List.append_assoc,
    List.take_append_drop]

/-- `pop` returns the head of the logical sequence. -/
theorem pop_fst (s : BufIter α) : (s.pop).1 = s.toList.head? := by
  rcases s with ⟨it, bf⟩
  cases bf with
  | nil => cases it <;> simp [BufIter.pop, BufIter.toList]
  | cons b bs => simp [BufIter.pop, BufIter.toList]

/-- `pop` leaves the tail of the logical sequence. -/
theorem pop_toList (s : BufIter α) : (s.pop).2.toList = s.toList.tail := by
  rcases s with ⟨it, bf⟩
  cases bf with
  | nil => cases it <;> simp [BufIter.pop, BufIter.toList]
  | cons b bs => simp [BufIter.pop, BufIter.toList]

/-- Indexing the tail shifts the index by one. -/
theorem getElem?_tail_eq (l : List α) (k : Nat) : l.tail[k]? = l[k + 1]? := by
  cases l <;> simp

/-- The `(k + 1)`-th popped value is the `k`-th logical element. -/
theorem popNth_eq (s : BufIter α) (k : Nat) : s.popNth k = s.toList[k]? := by
  induction k generalizing s with
  | zero => rw [BufIter.popNth, pop_fst, List.head?_eq_getElem?]
  | succ k ih => rw [BufIter.popNth, ih, pop_toList, getElem?_tail_eq]

/-- `peek` returns the `n`-th element of the logical sequence. -/
theorem peek_fst (s : BufIter α) (n : Nat) : (s.peek n).1 = s.toList[n]? := by
  rw [peek_eq]

/-- Closed form of `prepare` for an inclusive upper bound. -/
theorem prepare_included_eq (s : BufIter α) (lo : Bound) (ni : Nat) :
    s.prepare lo (Bound.included ni) =
      ⟨s.iter.drop ((ni + 1) - s.buf.length),
        s.buf ++ s.iter.take ((ni + 1) - s.buf.length)⟩ := by
  unfold BufIter.prepare
  dsimp only
  rw [pullGo_eq]

/-- Closed form of `prepare` for an exclusive upper bound. -/
theorem prepare_excluded_eq (s : BufIter α) (lo : Bound) (ne : Nat) :
    s.prepare lo (Bound.excluded ne) =
      ⟨s.iter.drop (ne - s.buf.length), s.buf ++ s.iter.take (ne - s.buf.length)⟩ := by
  unfold BufIter.prepare
  dsimp only
  rw [pullGo_eq]

/-- Closed form of `prepare` for an unbounded upper bound. -/
theorem prepare_unbounded_eq (s : BufIter α) (lo : Bound) :
    s.prepare lo Bound.unbounded = ⟨[], s.buf ++ s.iter⟩ := by
  unfold BufIter.prepare BufIter.prepare_all
  rw [drainGo_eq]

/-- `prepare` preserves the logical sequence. -/
theorem prepare_toList (s : BufIter α) (lo hi : Bound) :
    (s.prepare lo hi).toList = s.toList := by
  cases hi with
  | unbounded => rw [prepare_unbounded_eq]; simp [BufIter.toList]
  | included ni =>
    rw [prepare_included_eq, BufIter.toList, BufIter.toList, List.append_assoc,
      List.take_append_drop]
  | excluded ne =>
    rw [prepare_excluded_eq, BufIter.toList, BufIter.toList, List.append_assoc,
      List.take_append_drop]

/-- `peek_slice` looks up the range in the prepared buffer. -/
theorem peek_slice_fst (s : BufIter α) (lo hi : Bound) :
    (s.peek_slice lo hi).1 = sliceGet (s.prepare lo hi).buf lo hi := rfl

/-- The state left by `peek_slice` is the prepared state. -/
theorem peek_slice_snd (s : BufIter α) (lo hi : Bound) :
    (s.peek_slice lo hi).2 = s.prepare lo hi := rfl

/-- `peek_slice_mut` is the same state transformer and lookup as
`peek_slice`. -/
theorem peek_slice_mut_eq (s : BufIter α) (lo hi : Bound) :
    s.peek_slice_mut lo hi = s.peek_slice lo hi := rfl

/-- When at least `k` logical elements are requested but only fewer exist,
the pull loop of `prepare` moves the whole source into the buffer. -/
theorem prepare_buf_of_le (s : BufIter α) (k : Nat) (hk : s.toList.length ≤ k) :
    s.buf ++ s.iter.take (k - s.buf.length) = s.toList := by
  have hit : s.iter.length ≤ k - s.buf.length := by
    rw [BufIter.toList, List.length_append] at hk
    omega
  rw [List.take_of_length_le hit]
  rfl

/-- Writing through `peek_mut(n)` updates position `n` of the logical
sequence in place. -/
theorem peek_mut_write_toList (s : BufIter α) (n : Nat) (y : α)
    (h : n < s.toList.length) :
    (s.peek_mut_write n y).toList = s.toList.set n y := by
  unfold BufIter.peek_mut_write
  rw [peek_mut_eq_peek, peek_eq]
  obtain ⟨v, hv⟩ : ∃ v, s.toList[n]? = some v := ⟨_, List.getElem?_eq_getElem h⟩
  rw [hv]
  dsimp only
  have hbl : n < (s.buf ++ s.iter.take ((n + 1) - s.buf.length)).length := by
    rw [List.length_append, List.length_take]
    rw [BufIter.toList, List.length_append] at h
    omega
  conv_rhs =>
    rw [BufIter.toList, ← List.take_append_drop ((n + 1) - s.buf.length) s.iter,
      ← List.append_assoc, List.set_append, if_pos hbl]
  rw [BufIter.toList]

/-- Each operation's effect on the logical sequence is the spec-level
effect. -/
theorem applyOp_toList (s : BufIter α) (op : Op α) :
    (applyOp s op).toList = applyOpAbs s.toList op := by
  cases op with
  | push x => simp [applyOp, applyOpAbs, BufIter.push, BufIter.toList]
  | pop => simp [applyOp, applyOpAbs, pop_toList]
  | peek n => simp [applyOp, applyOpAbs, peek_toList]
  | peekMut n => simp [applyOp, applyOpAbs, peek_mut_eq_peek, peek_toList]
  | peekSlice lo hi => simp [applyOp, applyOpAbs, peek_slice_snd, prepare_toList]
  | peekSliceMut lo hi =>
    simp [applyOp, applyOpAbs, peek_slice_mut_eq, peek_slice_snd, prepare_toList]

/-- Running any sequence of operations, the logical sequence evolves exactly
as the spec-level model prescribes. -/
theorem runOps_toList (s : BufIter α) (ops : List (Op α)) :
    (runOps s ops).toList = runOpsAbs s.toList ops := by
  induction ops generalizing s with
  | nil => rfl
  | cons op ops ih => rw [runOps, runOpsAbs, ← applyOp_toList]; exact ih _

/-- C1 (counterexample): on a source with exactly 3 available elements,
`peek_slice(0..8)` and `peek_slice_mut(0..8)` return an absent result, not a
truncated 3-element view as the claim states, even though the lower bound 0
is satisfiable. -/
theorem C1_counterexample :
    ((BufIter.new [1, 2, 3] : BufIter Nat).peek_slice (Bound.included 0)
      (Bound.excluded 8)).1 = none ∧
    ((BufIter.new [1, 2, 3] : BufIter Nat).peek_slice_mut (Bound.included 0)
      (Bound.excluded 8)).1 = none := by
  exact ⟨rfl, rfl⟩

/-- C1 (amended): whenever a range's bounded upper end resolves beyond the
available elements, `peek_slice` and `peek_slice_mut` return an absent
result (`None`), never a truncated view, regardless of the lower bound. -/
theorem C1_peek_slice_overlong_none (s : BufIter α) (lo : Bound) (u : Nat) :
    (s.toList.length < u →
      (s.peek_slice lo (Bound.excluded u)).1 = none ∧
      (s.peek_slice_mut lo (Bound.excluded u)).1 = none) ∧
    (s.toList.length ≤ u →
      (s.peek_slice lo (Bound.included u)).1 = none ∧
      (s.peek_slice_mut lo (Bound.included u)).1 = none) := by
  constructor
  · intro h
    have hb : (s.prepare lo (Bound.excluded u)).buf = s.toList := by
      rw [prepare_excluded_eq]
      exact prepare_buf_of_le s u (by omega)
    have hs : sliceGet s.toList lo (Bound.excluded u) = none := by
      unfold sliceGet
      rw [if_neg]
      intro hc
      rw [Bound.endIndex] at hc
      omega
    constructor
    · rw [peek_slice_fst, hb, hs]
    · rw [peek_slice_mut_eq, peek_slice_fst, hb, hs]
  · intro h
    have hb : (s.prepare lo (Bound.included u)).buf = s.toList := by
      rw [prepare_included_eq]
      exact prepare_buf_of_le s (u + 1) (by omega)
    have hs : sliceGet s.toList lo (Bound.included u) = none := by
      unfold sliceGet
      rw [if_neg]
      intro hc
      rw [Bound.endIndex] at hc
      omega
    constructor
    · rw [peek_slice_fst, hb, hs]
    · rw [peek_slice_mut_eq, peek_slice_fst, hb, hs]

/-- Witness for the amended C1, at a 2-element source with range lower
bound 1 and upper bounds 7 (exclusive) and 6 (inclusive). -/
theorem C1_peek_slice_overlong_none_witness :
    (BufIter.new [4, 5] : BufIter Nat).toList.length < 7 ∧
    ((BufIter.new [4, 5] : BufIter Nat).peek_slice (Bound.included 1)
      (Bound.excluded 7)).1 = none ∧
    ((BufIter.new [4, 5] : BufIter Nat).peek_slice_mut (Bound.included 1)
      (Bound.included 6)).1 = none := by
  refine ⟨by decide, ?_, ?_⟩
  · exact ((C1_peek_slice_overlong_none (BufIter.new [4, 5]) (Bound.included 1) 7).1
      (by decide)).1
  · exact ((C1_peek_slice_overlong_none (BufIter.new [4, 5]) (Bound.included 1) 6).2
      (by decide)).2

/-- C2: `impl ExactSizeIterator for BufIter` (src/src/lib.rs:72) inherits the
default `size_hint` of `(0, None)`, so the default `len` body fails its
`assert_eq!(upper, Some(lower))` and panics (modelled as `none`); the buffer
never reports `buffered length + source remaining`, contradicting the spec
and the `ExactSizeIterator` contract. -/
theorem C2_exact_size_bug (s : BufIter α) :
    s.len = none ∧ s.len ≠ some (s.buf.length + s.iter.length) := by
  refine ⟨rfl, ?_⟩
  simp [BufIter.len, BufIter.size_hint]

/-- C3: for every operation sequence from a fresh buffer, the logical
sequence (buffer front-to-back, then remaining source) equals the spec-level
model: the original source minus popped items, with pushed items prepended
in push order. -/
theorem C3_logical_sequence_invariant (src : List α) (ops : List (Op α)) :
    (runOps (BufIter.new src) ops).toList = runOpsAbs src ops := by
  have h := runOps_toList (BufIter.new src) ops
  rwa [show (BufIter.new src).toList = src from rfl] at h

/-- C4: `peek(n)` returns the value of the `(n+1)`-th pop (the `n`-th
logical element) without consuming it, pulls exactly
`min ((n + 1) - buffered) available` elements (no read-ahead past index
`n`), and is absent exactly when fewer than `n + 1` elements exist; in
particular `peek(m)` on a fresh `m`-element source is absent. -/
theorem C4_peek_contract :
    (∀ (s : BufIter α) (n : Nat),
      (s.peek n).1 = s.popNth n ∧
      (s.peek n).1 = s.toList[n]? ∧
      (s.peek n).2 =
        ⟨s.iter.drop ((n + 1) - s.buf.length),
          s.buf ++ s.iter.take ((n + 1) - s.buf.length)⟩ ∧
      ((s.peek n).1 = none ↔ s.toList.length ≤ n)) ∧
    ∀ src : List α, ((BufIter.new src).peek src.length).1 = none := by
  constructor
  · intro s n
    refine ⟨?_, peek_fst s n, ?_, ?_⟩
    · rw [peek_fst, popNth_eq]
    · rw [peek_eq]
    · rw [peek_fst]
      exact List.getElem?_eq_none_iff
  · intro src
    rw [peek_fst]
    exact List.getElem?_eq_none (by simp [BufIter.new, BufIter.toList])

/-- C5: `pop` takes the buffer's front without touching the source when the
buffer is non-empty, pulls exactly one element straight from the source
(storing nothing) when the buffer is empty, is absent exactly when both are
exhausted, and `Iterator::next` is `pop`. -/
theorem C5_pop_contract (s : BufIter α) :
    (s.buf ≠ [] → s.pop = (s.buf.head?, ⟨s.iter, s.buf.tail⟩)) ∧
    (s.buf = [] → s.pop = (s.iter.head?, ⟨s.iter.tail, []⟩)) ∧
    ((s.pop).1 = none ↔ s.buf = [] ∧ s.iter = []) ∧
    s.next = s.pop := by
  rcases s with ⟨it, bf⟩
  refine ⟨?_, ?_, ?_, rfl⟩ <;> cases bf <;> cases it <;> simp [BufIter.pop]

/-- Witness for C5 at concrete states exercising both branches. -/
theorem C5_pop_witness :
    (BufIter.mk [2] [1] : BufIter Nat).pop = (some 1, ⟨[2], []⟩) ∧
    (BufIter.mk [2] [] : BufIter Nat).pop = (some 2, ⟨[], []⟩) := by
  constructor
  · have h := (C5_pop_contract (⟨[2], [1]⟩ : BufIter Nat)).1 (by decide)
    simpa using h
  · have h := (C5_pop_contract (⟨[2], []⟩ : BufIter Nat)).2.1 rfl
    simpa using h

/-- C6: `push(x); pop()` returns `x` and restores the prior state, and
pushes are LIFO: after `push(a); push(b)` the next pop yields `b`, the
following pop yields `a`, restoring the prior state. -/
theorem C6_push_pop_lifo (s : BufIter α) (x a b : α) :
    (s.push x).pop = (some x, s) ∧
    ((s.push a).push b).pop = (some b, s.push a) ∧
    (((s.push a).push b).pop.2).pop = (some a, s) := by
  exact ⟨rfl, rfl, rfl⟩

/-- C7: `prepare` pulls exactly `(included-upper + 1) ∸ buffered` or
`excluded-upper ∸ buffered` elements (clamped at zero, stopping early at
exhaustion since `take`/`drop` clamp), appending them to the buffer's back;
an unbounded upper end drains the source completely. -/
theorem C7_prepare_contract (s : BufIter α) (lo : Bound) (ni ne : Nat) :
    s.prepare lo (Bound.included ni) =
      ⟨s.iter.drop ((ni + 1) - s.buf.length),
        s.buf ++ s.iter.take ((ni + 1) - s.buf.length)⟩ ∧
    s.prepare lo (Bound.excluded ne) =
      ⟨s.iter.drop (ne - s.buf.length), s.buf ++ s.iter.take (ne - s.buf.length)⟩ ∧
    s.prepare lo Bound.unbounded = ⟨[], s.buf ++ s.iter⟩ :=
  ⟨prepare_included_eq s lo ni, prepare_excluded_eq s lo ne, prepare_unbounded_eq s lo⟩

/-- C8: a second `peek(n)` with no pop or push in between returns the same
element and leaves the state (in particular the source) untouched. -/
theorem C8_peek_idempotent (s : BufIter α) (n : Nat) :
    ((s.peek n).2.peek n).1 = (s.peek n).1 ∧ ((s.peek n).2.peek n).2 = (s.peek n).2 := by
  constructor
  · rw [peek_fst, peek_fst, peek_toList]
  · rw [peek_eq s n]
    dsimp only
    rw [peek_eq]
    dsimp only
    by_cases h : n + 1 ≤ s.toList.length
    · have he : (n + 1) - (s.buf ++ s.iter.take ((n + 1) - s.buf.length)).length = 0 := by
        rw [List.length_append, List.length_take]
        rw [BufIter.toList, List.length_append] at h
        omega
      rw [he]
      simp
    · have hd : s.iter.drop ((n + 1) - s.buf.length) = [] := by
        apply List.drop_eq_nil_of_le
        rw [BufIter.toList, List.length_append] at h
        omega
      rw [hd]
      simp

/-- C9: `peek_mut` has exactly the availability contract of `peek` (same
result, same state), in-place writes at index `n` update the logical
sequence at `n`, and for a buffer holding at least 3 logical elements,
writing `y` through `peek_mut(2)` makes the third pop yield `y`. -/
theorem C9_peek_mut_contract :
    (∀ (s : BufIter α) (n : Nat), s.peek_mut n = s.peek n) ∧
    (∀ (s : BufIter α) (n : Nat) (y : α), n < s.toList.length →
      (s.peek_mut_write n y).toList = s.toList.set n y) ∧
    (∀ (s : BufIter α) (y : α), 3 ≤ s.toList.length →
      (s.peek_mut_write 2 y).popNth 2 = some y) := by
  refine ⟨peek_mut_eq_peek, peek_mut_write_toList, ?_⟩
  intro s y h
  rw [popNth_eq, peek_mut_write_toList s 2 y (by omega)]
  exact List.getElem?_set_self (by omega)

/-- Witness for C9: writing 99 through `peek_mut(2)` on source
`[10, 11, 12]`; the third pop yields 99. -/
theorem C9_peek_mut_witness :
    ((BufIter.new [10, 11, 12] : BufIter Nat).peek_mut_write 2 99).toList
      = [10, 11, 99] ∧
    ((BufIter.new [10, 11, 12] : BufIter Nat).peek_mut_write 2 99).popNth 2
      = some 99 := by
  constructor
  · exact (C9_peek_mut_contract.2.1 (BufIter.new [10, 11, 12]) 2 99 (by decide)).trans
      (by decide)
  · exact C9_peek_mut_contract.2.2 (BufIter.new [10, 11, 12]) 99 (by decide)

/-- C10: with wrapping `usize` arithmetic, `peek(usize::MAX)` and
`peek_mut(usize::MAX)` compute the target count `usize::MAX + 1 ≡ 0
(mod 2^w)`, so for every machine-representable buffer state they pull
nothing from the source and return `None`, leaving the state unchanged. -/
theorem C10_peek_usize_max (w : Nat) (s : BufIter α) (h : s.buf.length < 2 ^ w) :
    s.peekW w (2 ^ w - 1) = (none, s) ∧ s.peek_mutW w (2 ^ w - 1) = (none, s) := by
  have hmod : (2 ^ w - 1 + 1) % 2 ^ w = 0 := by
    rw [Nat.sub_add_cancel Nat.one_le_two_pow, Nat.mod_self]
  have hprep : s.prepare_n 0 = (Except.ok (), s) := by
    rw [prepare_n_eq]
    simp
  have hget : s.buf[2 ^ w - 1]? = none := List.getElem?_eq_none (by omega)
  constructor
  · unfold BufIter.peekW
    rw [hmod, hprep]
    dsimp only
    rw [hget]
  · unfold BufIter.peek_mutW
    rw [hmod, hprep]
    dsimp only
    rw [hget]

/-- Witness for C10 at `w = 4` and a state with one buffered and one pending
element. -/
theorem C10_peek_usize_max_witness :
    (BufIter.mk [5] [7] : BufIter Nat).buf.length < 2 ^ 4 ∧
    (BufIter.mk [5] [7] : BufIter Nat).peekW 4 (2 ^ 4 - 1) = (none, ⟨[5], [7]⟩) ∧
    (BufIter.mk [5] [7] : BufIter Nat).peek_mutW 4 (2 ^ 4 - 1) = (none, ⟨[5], [7]⟩) :=
  ⟨by decide, (C10_peek_usize_max 4 (⟨[5], [7]⟩ : BufIter Nat) (by decide)).1,
    (C10_peek_usize_max 4 (⟨[5], [7]⟩ : BufIter Nat) (by decide)).2⟩

example : (BufIter.new [1, 2, 3]).pop = (some 1, ⟨[2, 3], []⟩) := by decide
example : ((BufIter.new [1, 2, 3]).peek 1).1 = some 2 := by decide
example : ((BufIter.new [1, 2, 3]).peek 1).2 = ⟨[3], [1, 2]⟩ := by decide
example : ((BufIter.new [1, 2, 3]).peek 3).1 = none := by decide
example :
    ((BufIter.new [1, 2, 3]).peek_slice (Bound.included 0) (Bound.excluded 8)).1 = none := by
  decide
example :
    ((BufIter.new [1, 2, 3]).peek_slice (Bound.included 0) (Bound.excluded 2)).1 =
      some [1, 2] := by
  decide
example : (BufIter.new [1, 2, 3]).len = none := by decide
